import Mathlib

/-!
# Verification of the Namecoin credential manager (`src/src/Namecoin.cpp`)

A shallow embedding of the Moneychanger Namecoin module.  The external
collaborators (the `nmcrpc` registry client, the Qt password dialog, the
SQL store) are modelled as explicit environments: every RPC outcome is
scripted by an environment field, a call that can throw a C++ exception
is modelled as `Except NmcErr`, and the SQL store is a list of rows on
which the module's `UPDATE ... WHERE name = :name` / `INSERT` statements
act as pure list transformations.  Observable external actions (dialog
prompts, calls to the underlying wallet-unlock primitive, registry
`name_new` / `name_firstupdate` operations, invocations of
`updateName`) are recorded in an event trace.
-/

namespace Namecoin

/-- The exception kinds thrown by the external collaborators.
`rpcError` models `nmcrpc::JsonRpc::RpcError`, `stdError` any other
`std::exception`, `noPrivateKey` models
`nmcrpc::NamecoinInterface::NoPrivateKey`, `nameNotFound` models
`nmcrpc::NamecoinInterface::NameNotFound` and `jsonParseError` models
`nmcrpc::JsonRpc::JsonParseError`. -/
inductive NmcErr where
  | rpcError : NmcErr
  | stdError : NmcErr
  | noPrivateKey : NmcErr
  | nameNotFound : NmcErr
  | jsonParseError : NmcErr
deriving DecidableEq, Repr

/-- One row of the `nmc_names` SQL table:
`name` (key), `nym`, `cred`, `active`, nullable `regData`, nullable
`updateTx`. -/
structure DBRow where
  name : String
  nym : String
  cred : String
  active : Bool
  regData : Option String
  updateTx : Option String
deriving DecidableEq, Repr

/-- An in-memory `nmcrpc::NameRegistration` object held in
`pendingRegs`: its registered name plus an opaque internal progress
state (the part that round-trips through the text serialization). -/
structure Reg where
  name : String
  st : Nat
deriving DecidableEq, Repr

/-- The manager state: the persisted `nmc_names` table and the
in-memory `pendingRegs` list. -/
structure MgrState where
  db : List DBRow
  pendingRegs : List Reg
deriving DecidableEq, Repr

/-- Observable external actions. -/
inductive Ev where
  /-- The password dialog was shown (`dlg.exec ()`), with the attempt
  index of the retry loop. -/
  | promptShown : Nat → Ev
  /-- The underlying unlock primitive `unlocker.unlock (pwd)` was
  invoked. -/
  | lowUnlockCall : String → Ev
  /-- The registry `reg.registerName (nm)` operation was invoked. -/
  | registerOp : String → Ev
  /-- The registry `i->activate ()` operation was invoked. -/
  | activateOp : String → Ev
  /-- `updateName (nym, cred)` was invoked for the binding named
  `nm`. -/
  | updateNameInvoked (nm nym cred : String) : Ev
deriving DecidableEq, Repr

/-- The Namecoin namespace for credentials (`NMC_NS = "ot"`). -/
def NMC_NS : String := "ot"

/-- `getNameForNym`: the registry key is derived purely from the
namespace and the credential hash via `nc.queryName (NMC_NS, cred)`
(the nym argument is unused by the code).  The registry client's
namespace/key pairing is modelled as concatenation. -/
def getNameFor (cred : String) : String := NMC_NS ++ "/" ++ cred

/-- The `UPDATE nmc_names SET regData = NULL, active = 1 WHERE
name = :name` statement executed when a registration is finished
(`timerUpdate`, lines 281-288). -/
def finishRows (db : List DBRow) (nm : String) : List DBRow :=
  db.map (fun row =>
    if row.name = nm then { row with regData := none, active := true } else row)

/-- The `UPDATE nmc_names SET regData = :regData WHERE name = :name`
statement executed after an activation (`timerUpdate`,
lines 318-325). -/
def setRegDataRows (db : List DBRow) (nm : String) (s : String) : List DBRow :=
  db.map (fun row =>
    if row.name = nm then { row with regData := some s } else row)

/-- The `UPDATE nmc_names SET updateTx = :txid WHERE name = :name`
statement executed after a successful `name_update` (`updateName`,
lines 214-221). -/
def setUpdateTxRows (db : List DBRow) (nm : String) (txid : String) : List DBRow :=
  db.map (fun row =>
    if row.name = nm then { row with updateTx := some txid } else row)

/-- The `SELECT nym, cred FROM nmc_names WHERE name = :name` /
`queryOne` step of the finished branch: the first matching row's nym
and cred (an empty record yields empty strings). -/
def lookupNymCred : List DBRow → String → String × String
  | [], _ => ("", "")
  | row :: rest, nm =>
    if row.name = nm then (row.nym, row.cred) else lookupNymCred rest nm

/-- Environment for `NMC_NameManager::updateName`: the scripted
behaviour of the OT API, the `nmcrpc` address primitives and the
`name_update` execution. -/
structure UpdEnv where
  /-- `OTAPI_Wrap::GetNym_SourceForID`. -/
  nymSource : String → String
  /-- `addr.isValid ()`. -/
  addrValid : String → Bool
  /-- `addr.isMine ()`. -/
  addrIsMine : String → Bool
  /-- `nc.needWalletPassphrase ()` at the time of the call. -/
  needWalletPassphrase : Bool
  /-- `addr.signMessage (msg)`; may throw. -/
  signMessage : String → String → Except NmcErr String
  /-- `upd.execute (addr)` for the given name; returns the txid or
  throws (`noPrivateKey` is the case caught by the code). -/
  execute : String → Except NmcErr String

/-- `NMC_NameManager::updateName (nym, cred)` (lines 181-231).
Returns the boolean result together with the updated table, or the
escaped exception.  The `catch (NoPrivateKey)` inside the function is
the only handler: a `noPrivateKey` failure of `execute` yields
`ok false` with no txid write, any other exception propagates to the
caller. -/
def updateName (env : UpdEnv) (db : List DBRow) (nym cred : String) :
    Except NmcErr (Bool × List DBRow) :=
  let addrStr := env.nymSource nym
  if ¬ (env.addrValid addrStr ∧ env.addrIsMine addrStr) then
    Except.ok (false, db)
  else
    let nm := getNameFor cred
    if env.needWalletPassphrase then
      Except.ok (false, db)
    else
      match env.signMessage addrStr cred with
      | Except.error e => Except.error e
      | Except.ok _sig =>
        match env.execute nm with
        | Except.error NmcErr.noPrivateKey => Except.ok (false, db)
        | Except.error e => Except.error e
        | Except.ok txid => Except.ok (true, setUpdateTxRows db nm txid)

/-- Whether `updateName` escapes with an exception; this depends only
on the environment and the arguments, never on the table contents. -/
def updThrows (env : UpdEnv) (nym cred : String) : Bool :=
  let addrStr := env.nymSource nym
  if ¬ (env.addrValid addrStr ∧ env.addrIsMine addrStr) then
    false
  else if env.needWalletPassphrase then
    false
  else
    match env.signMessage addrStr cred with
    | Except.error _ => true
    | Except.ok _ =>
      match env.execute (getNameFor cred) with
      | Except.error NmcErr.noPrivateKey => false
      | Except.error _ => true
      | Except.ok _ => false

/-- The Json value found under the key `"nmcsig"` of a name's value:
either a Json string or anything that fails `isString ()` (including
the null returned for an absent key). -/
inductive JsonVal where
  | jstr : String → JsonVal
  | jnonstr : JsonVal
deriving DecidableEq, Repr

/-- Environment for `NMC_Verifier`: the scripted registry state, as a
function of the queried name. -/
structure VerEnv where
  /-- `nm.getJsonValue ()` followed by the `val["nmcsig"]` lookup;
  throws `nameNotFound` for an unregistered name and `jsonParseError`
  for a value that is not valid JSON. -/
  getJsonSig : String → Except NmcErr JsonVal
  /-- `nm.getAddress ()` followed by `.getAddress ()`: the address
  string currently holding the name. -/
  getAddress : String → Except NmcErr String
  /-- `addr.verifySignature (msg, sig)` for the given address. -/
  verifySignature : String → String → String → Bool

/-- `NMC_Verifier::verifyCredentialHashAtSource (hash, source)`
(lines 412-461).  The try block catches exactly `NameNotFound` and
`JsonParseError`, both collapsing to `false`; any other exception
escapes.  The function reads the registry only and is pure. -/
def verifyCredentialHashAtSource (env : VerEnv) (hash source : String) :
    Except NmcErr Bool :=
  let nm := getNameFor hash
  let body : Except NmcErr Bool :=
    match env.getJsonSig nm with
    | Except.error e => Except.error e
    | Except.ok sigval =>
      match sigval with
      | JsonVal.jnonstr => Except.ok false
      | JsonVal.jstr sig =>
        match env.getAddress nm with
        | Except.error e => Except.error e
        | Except.ok addrStr =>
          if source ≠ addrStr then Except.ok false
          else Except.ok (env.verifySignature addrStr hash sig)
  match body with
  | Except.error NmcErr.nameNotFound => Except.ok false
  | Except.error NmcErr.jsonParseError => Except.ok false
  | Except.error e => Except.error e
  | Except.ok b => Except.ok b

/-- Result of the password dialog `dlg.exec ()`: return code 0
(cancel / window closed) or the entered passphrase. -/
inductive PromptRes where
  | cancelled : PromptRes
  | entered : String → PromptRes
deriving DecidableEq, Repr

/-- Outcome of the underlying `nmcrpc` unlock primitive
`unlocker.unlock (pwd)`: success, the `UnlockFailure` thrown for a
wrong passphrase, or a transport/other failure. -/
inductive LowUnlockRes where
  | ok : LowUnlockRes
  | wrongPass : LowUnlockRes
  | rpcErr : LowUnlockRes
  | stdErr : LowUnlockRes
deriving DecidableEq, Repr

/-- Environment for `NMC_WalletUnlocker::unlock`. -/
structure UnlockEnv where
  /-- `nc.needWalletPassphrase ()`. -/
  needWalletPassphrase : Bool
  /-- The dialog's result on the given retry attempt. -/
  prompt : Nat → PromptRes
  /-- `unlocker.unlock (pwd)` as a function of the passphrase. -/
  lowUnlock : String → LowUnlockRes

/-- How a call to `NMC_WalletUnlocker::unlock ()` ends, as observed by
its caller: it either returns normally or throws
`NMC_WalletUnlocker::UnlockFailure` (thrown only on a cancelled
dialog).  A swallowed transport error also counts as
`returnedNormally`. -/
inductive UnlockRes where
  | returnedNormally : UnlockRes
  | unlockThrew : UnlockRes
deriving DecidableEq, Repr

/-- `NMC_WalletUnlocker::unlock ()` (lines 350-401), with fuel for the
wrong-passphrase tail recursion (`none` models the retry loop never
ending).  If a passphrase is needed the dialog is shown; cancel throws
`UnlockFailure`.  Otherwise `unlocker.unlock (pwd)` is always invoked
(with the empty string when no passphrase was prompted for): a
wrong-passphrase failure retries by a recursive call, while an
`RpcError` or any other exception is logged and swallowed, so the
function returns normally. -/
def unlockRun (env : UnlockEnv) (attempt : Nat) :
    Nat → Option (UnlockRes × List Ev)
  | 0 => none
  | fuel + 1 =>
    if env.needWalletPassphrase then
      match env.prompt attempt with
      | PromptRes.cancelled =>
        some (UnlockRes.unlockThrew, [Ev.promptShown attempt])
      | PromptRes.entered pwd =>
        match env.lowUnlock pwd with
        | LowUnlockRes.wrongPass =>
          match unlockRun env (attempt + 1) fuel with
          | none => none
          | some (r, evs) =>
            some (r, Ev.promptShown attempt :: Ev.lowUnlockCall pwd :: evs)
        | _ =>
          some (UnlockRes.returnedNormally,
                [Ev.promptShown attempt, Ev.lowUnlockCall pwd])
    else
      match env.lowUnlock "" with
      | LowUnlockRes.wrongPass =>
        match unlockRun env (attempt + 1) fuel with
        | none => none
        | some (r, evs) => some (r, Ev.lowUnlockCall "" :: evs)
      | _ => some (UnlockRes.returnedNormally, [Ev.lowUnlockCall ""])

/-- The full environment of `NMC_NameManager`: the unlock
collaborators, the scripted per-registration registry predicates and
operations, the registration operation and the text serialization. -/
structure Env where
  uenv : UnlockEnv
  /-- `entry.isFinished ()`; may throw. -/
  isFinished : Reg → Except NmcErr Bool
  /-- `entry.canActivate ()`; may throw. -/
  canActivate : Reg → Except NmcErr Bool
  /-- `i->activate ()`: the new internal progress state; may throw. -/
  activate : Reg → Except NmcErr Nat
  /-- `reg.registerName (nm)`: the initial progress state; may
  throw. -/
  registerName : String → Except NmcErr Nat
  /-- `out << reg`: the text serialization of a registration. -/
  serialize : Reg → String
  /-- `in >> reg`: deserialization, used by the constructor reload. -/
  deserialize : String → Reg
  upd : UpdEnv

/-- The constructor `NMC_NameManager::NMC_NameManager` (lines 78-97):
reload into `pendingRegs` the deserialized `regData` of every row with
non-null `regData` and `active` false. -/
def loadPendingRegs (env : Env) (db : List DBRow) : List Reg :=
  (db.filter (fun row => row.regData.isSome && !row.active)).filterMap
    (fun row => (row.regData.map env.deserialize))

/-- The freshly constructed manager over a persisted table. -/
def constructManager (env : Env) (db : List DBRow) : MgrState :=
  { db := db, pendingRegs := loadPendingRegs env db }

/-- `NMC_NameManager::startRegistration (nym, cred)` (lines 117-168),
with unlock fuel.  `none` models a never-ending unlock retry loop.
On `UnlockFailure` the function returns with nothing persisted; an
exception from `registerName` is caught by the outer handlers, again
with nothing persisted; otherwise the new row is inserted and the
registration appended to `pendingRegs`. -/
def startRegistration (env : Env) (ufuel : Nat) (st : MgrState)
    (nym cred : String) : Option (MgrState × List Ev) :=
  let nm := getNameFor cred
  match unlockRun env.uenv 0 ufuel with
  | none => none
  | some (UnlockRes.unlockThrew, evs) => some (st, evs)
  | some (UnlockRes.returnedNormally, evs) =>
    match env.registerName nm with
    | Except.error _ => some (st, evs ++ [Ev.registerOp nm])
    | Except.ok st0 =>
      let reg : Reg := { name := nm, st := st0 }
      let row : DBRow :=
        { name := nm, nym := nym, cred := cred, active := false,
          regData := some (env.serialize reg), updateTx := none }
      some ({ db := st.db ++ [row], pendingRegs := st.pendingRegs ++ [reg] },
            evs ++ [Ev.registerOp nm])

/-- One iteration of the advance loop of `timerUpdate`
(lines 266-338) for the entry `r`: returns the entry kept in the list
(`none` when erased), the updated table and the emitted events.  The
surrounding `try`/`catch` catches every exception of the body; crucially
the catch runs *after* any table writes already performed, and the
`erase` is skipped when `updateName` throws. -/
def processEntry (env : Env) (db : List DBRow) (r : Reg) :
    Option Reg × List DBRow × List Ev :=
  match env.isFinished r with
  | Except.error _ => (some r, db, [])
  | Except.ok true =>
    let db1 := finishRows db r.name
    let nc := lookupNymCred db1 r.name
    match updateName env.upd db1 nc.1 nc.2 with
    | Except.error _ =>
      (some r, db1, [Ev.updateNameInvoked r.name nc.1 nc.2])
    | Except.ok (_success, db2) =>
      (none, db2, [Ev.updateNameInvoked r.name nc.1 nc.2])
  | Except.ok false =>
    match env.canActivate r with
    | Except.error _ => (some r, db, [])
    | Except.ok false => (some r, db, [])
    | Except.ok true =>
      match env.activate r with
      | Except.error _ => (some r, db, [Ev.activateOp r.name])
      | Except.ok st2 =>
        let r2 : Reg := { r with st := st2 }
        let db1 := setRegDataRows db r.name (env.serialize r2)
        (some r2, db1, [Ev.activateOp r.name])

/-- The advance loop of `timerUpdate` over the whole `pendingRegs`
list, threading the table through the entries. -/
def advanceLoop (env : Env) (db : List DBRow) :
    List Reg → List Reg × List DBRow × List Ev
  | [] => ([], db, [])
  | r :: rs =>
    let p := processEntry env db r
    let q := advanceLoop env p.2.1 rs
    (p.1.toList ++ q.1, q.2.1, p.2.2 ++ q.2.2)

/-- The scan phase of `timerUpdate` (lines 244-247): evaluate
`entry.canActivate () || entry.isFinished ()` over all entries (with
C++ short-circuiting) to decide whether the wallet must be unlocked.
This loop runs outside any `try` block, so an exception here escapes
`timerUpdate` itself. -/
def scanNeedUnlock (env : Env) : List Reg → Except NmcErr Bool
  | [] => Except.ok false
  | r :: rs =>
    match env.canActivate r with
    | Except.error e => Except.error e
    | Except.ok ca =>
      match (if ca then Except.ok true else env.isFinished r) with
      | Except.error e => Except.error e
      | Except.ok here =>
        match scanNeedUnlock env rs with
        | Except.error e => Except.error e
        | Except.ok rest => Except.ok (here || rest)

/-- How a call to `NMC_NameManager::timerUpdate` ends: the unlock retry
loop never terminated (`diverged`), an exception escaped the slot
(`threw`, carrying the — unchanged — state), or the tick ran to
completion. -/
inductive TickResult where
  | diverged : TickResult
  | threw : MgrState → NmcErr → List Ev → TickResult
  | done : MgrState → List Ev → TickResult
deriving DecidableEq, Repr

/-- `NMC_NameManager::timerUpdate ()` (lines 237-339): scan phase
(unprotected), batched unlock (a caught `UnlockFailure` cancels the
whole tick), then the advance loop. -/
def timerUpdate (env : Env) (ufuel : Nat) (st : MgrState) : TickResult :=
  match scanNeedUnlock env st.pendingRegs with
  | Except.error e => TickResult.threw st e []
  | Except.ok needUnlock =>
    if needUnlock then
      match unlockRun env.uenv 0 ufuel with
      | none => TickResult.diverged
      | some (UnlockRes.unlockThrew, evs) => TickResult.done st evs
      | some (UnlockRes.returnedNormally, evs) =>
        let a := advanceLoop env st.db st.pendingRegs
        TickResult.done { db := a.2.1, pendingRegs := a.1 } (evs ++ a.2.2)
    else
      let a := advanceLoop env st.db st.pendingRegs
      TickResult.done { db := a.2.1, pendingRegs := a.1 } a.2.2

/-- A binding with registry key `n` is present in the in-memory
ledger. -/
def InLedger (regs : List Reg) (n : String) : Prop :=
  ∃ r ∈ regs, r.name = n

/-- Some persisted row with key `n` has non-null `regData` and
`active = false` (the reload condition of the constructor's SQL
query). -/
def PendingRow (db : List DBRow) (n : String) : Prop :=
  ∃ row ∈ db, row.name = n ∧ row.regData.isSome = true ∧ row.active = false

/-- The spec's §3 invariant: a binding exists in the in-memory ledger
iff a persisted row under its name has non-null `regData` and is not
yet active. -/
def ledgerMirrorsDB (st : MgrState) : Prop :=
  ∀ n, InLedger st.pendingRegs n ↔ PendingRow st.db n

/-- The immutable part of a row: the columns (`name`, `nym`, `cred`)
that no `UPDATE` statement of the module ever touches. -/
def rowKey (row : DBRow) : String × String × String :=
  (row.name, row.nym, row.cred)

/-- The immutable skeleton of the table. -/
def skeleton (db : List DBRow) : List (String × String × String) :=
  db.map rowKey

/-- Recognizes the event recording an `updateName` invocation for the
binding named `nm`. -/
def isUpdInvFor (nm : String) : Ev → Bool
  | Ev.updateNameInvoked m _ _ => m == nm
  | _ => false

/-! ### Concrete fixtures used by counterexamples and witnesses -/

/-- An unlock environment where the wallet needs no passphrase and the
underlying primitive succeeds. -/
def uenvNoPass : UnlockEnv :=
  { needWalletPassphrase := false
    prompt := fun _ => PromptRes.cancelled
    lowUnlock := fun _ => LowUnlockRes.ok }

/-- An unlock environment where the user cancels the very first
prompt. -/
def uenvCancel : UnlockEnv :=
  { needWalletPassphrase := true
    prompt := fun _ => PromptRes.cancelled
    lowUnlock := fun _ => LowUnlockRes.ok }

/-- An unlock environment where the passphrase is entered but the
underlying unlock primitive fails with a transport error. -/
def uenvRpcFail : UnlockEnv :=
  { needWalletPassphrase := true
    prompt := fun _ => PromptRes.entered "pw"
    lowUnlock := fun _ => LowUnlockRes.rpcErr }

/-- An update environment where everything succeeds. -/
def updEnvGood : UpdEnv :=
  { nymSource := fun _ => "addr1"
    addrValid := fun _ => true
    addrIsMine := fun _ => true
    needWalletPassphrase := false
    signMessage := fun _ _ => Except.ok "sig1"
    execute := fun _ => Except.ok "tx1" }

/-- An update environment where `execute` throws `NoPrivateKey`. -/
def updEnvNoKey : UpdEnv :=
  { updEnvGood with execute := fun _ => Except.error NmcErr.noPrivateKey }

/-- An update environment where `signMessage` throws a transport
error, so `updateName` escapes with an exception. -/
def updEnvSignFail : UpdEnv :=
  { updEnvGood with signMessage := fun _ _ => Except.error NmcErr.rpcError }

/-- An update environment where the wallet is still locked. -/
def updEnvLocked : UpdEnv :=
  { updEnvGood with needWalletPassphrase := true }

/-- A manager environment whose single relevant binding is finished
and whose update step succeeds. -/
def envGood : Env :=
  { uenv := uenvNoPass
    isFinished := fun _ => Except.ok true
    canActivate := fun _ => Except.ok false
    activate := fun _ => Except.ok 1
    registerName := fun _ => Except.ok 0
    serialize := fun r => r.name
    deserialize := fun s => { name := s, st := 0 }
    upd := updEnvGood }

/-- Like `envGood`, but `updateName` escapes with an exception
(`signMessage` throws). -/
def envUpdThrows : Env :=
  { envGood with upd := updEnvSignFail }

/-- Like `envGood`, but the scan phase's `canActivate` throws a
transport error. -/
def envScanThrows : Env :=
  { envGood with canActivate := fun _ => Except.error NmcErr.rpcError }

/-- Like `envGood`, but unlocking hits a swallowed transport error and
the wallet stays locked. -/
def envUnlockRpcFail : Env :=
  { envGood with uenv := uenvRpcFail, upd := updEnvLocked }

/-- Like `envGood`, but the user cancels the unlock prompt. -/
def envCancel : Env :=
  { envGood with uenv := uenvCancel }

/-- A pending registration for credential hash `"c1"`. -/
def regOne : Reg := { name := "ot/c1", st := 0 }

/-- The persisted row of `regOne`, still pending. -/
def rowPending : DBRow :=
  { name := "ot/c1", nym := "n1", cred := "c1", active := false,
    regData := some "ot/c1", updateTx := none }

/-- The persisted row after the finished step has run. -/
def rowFinished : DBRow :=
  { rowPending with active := true, regData := none }

/-- An already-activated row as left behind by a partial update. -/
def rowActiveNoTx : DBRow :=
  { name := "ot/c1", nym := "n1", cred := "c1", active := true,
    regData := none, updateTx := none }

/-- A manager state holding exactly the pending binding `regOne`. -/
def stOne : MgrState := { db := [rowPending], pendingRegs := [regOne] }

/-- Like `envGood`, but `isFinished` throws in the advance phase
(`canActivate` is still fine). -/
def envFinThrows : Env :=
  { envGood with isFinished := fun _ => Except.error NmcErr.rpcError }

/-- Like `envGood`, but the binding is not finished and `canActivate`
throws in the advance phase. -/
def envCanThrows : Env :=
  { envGood with isFinished := fun _ => Except.ok false,
                 canActivate := fun _ => Except.error NmcErr.rpcError }

/-- A verifier environment where the queried name does not exist. -/
def verEnvNotFound : VerEnv :=
  { getJsonSig := fun _ => Except.error NmcErr.nameNotFound
    getAddress := fun _ => Except.ok "addr1"
    verifySignature := fun _ _ _ => true }

/-! ### Shared helper lemmas -/

/-- The advance loop distributes over list append: the entries after a
given one are processed from the table state the earlier entries left
behind, independently of how the earlier entries fared. -/
theorem advanceLoop_append (env : Env) (db : List DBRow) (l1 l2 : List Reg) :
    advanceLoop env db (l1 ++ l2) =
      ((advanceLoop env db l1).1 ++ (advanceLoop env (advanceLoop env db l1).2.1 l2).1,
       (advanceLoop env (advanceLoop env db l1).2.1 l2).2.1,
       (advanceLoop env db l1).2.2 ++ (advanceLoop env (advanceLoop env db l1).2.1 l2).2.2) := by
  induction l1 generalizing db with
  | nil => simp [advanceLoop]
  | cons r rs ih =>
    simp only [List.cons_append, advanceLoop, List.append_eq]
    rw [ih]
    simp [List.append_assoc]

/-- Membership in the ledger, phrased through the list of names. -/
theorem inLedger_iff_mem_map (regs : List Reg) (n : String) :
    InLedger regs n ↔ n ∈ regs.map Reg.name := by
  simp [InLedger, List.mem_map]

/-- The finished step's deactivation clears the pending mark of the
processed name and leaves every other name's pending mark alone. -/
theorem pendingRow_finishRows (db : List DBRow) (m n : String) :
    PendingRow (finishRows db m) n ↔ n ≠ m ∧ PendingRow db n := by
  constructor
  · rintro ⟨row2, hmem, hname, hsome, hact⟩
    rw [finishRows, List.mem_map] at hmem
    obtain ⟨row, hrow, hrow2⟩ := hmem
    by_cases h : row.name = m
    · rw [if_pos h] at hrow2
      subst hrow2
      simp at hact
    · rw [if_neg h] at hrow2
      subst hrow2
      exact ⟨fun he => h (hname.trans he), row, hrow, hname, hsome, hact⟩
  · rintro ⟨hne, row, hrow, hname, hsome, hact⟩
    refine ⟨row, ?_, hname, hsome, hact⟩
    rw [finishRows, List.mem_map]
    refine ⟨row, hrow, ?_⟩
    rw [if_neg (fun h => hne (hname.symm.trans h))]

/-- Writing a transaction id touches only the `updateTx` column, so
pending marks are untouched for every name. -/
theorem pendingRow_setUpdateTxRows (db : List DBRow) (m t n : String) :
    PendingRow (setUpdateTxRows db m t) n ↔ PendingRow db n := by
  constructor
  · rintro ⟨row2, hmem, hname, hsome, hact⟩
    rw [setUpdateTxRows, List.mem_map] at hmem
    obtain ⟨row, hrow, hrow2⟩ := hmem
    by_cases h : row.name = m
    · rw [if_pos h] at hrow2; subst hrow2
      exact ⟨row, hrow, hname, hsome, hact⟩
    · rw [if_neg h] at hrow2; subst hrow2
      exact ⟨row, hrow, hname, hsome, hact⟩
  · rintro ⟨row, hrow, hname, hsome, hact⟩
    by_cases h : row.name = m
    · refine ⟨{ row with updateTx := some t }, ?_, hname, hsome, hact⟩
      rw [setUpdateTxRows, List.mem_map]
      exact ⟨row, hrow, by rw [if_pos h]⟩
    · refine ⟨row, ?_, hname, hsome, hact⟩
      rw [setUpdateTxRows, List.mem_map]
      exact ⟨row, hrow, by rw [if_neg h]⟩

/-- Rewriting `regData` for one name leaves the pending marks of all
other names alone. -/
theorem pendingRow_setRegDataRows_ne (db : List DBRow) (m s n : String)
    (hne : n ≠ m) :
    PendingRow (setRegDataRows db m s) n ↔ PendingRow db n := by
  constructor
  · rintro ⟨row2, hmem, hname, hsome, hact⟩
    rw [setRegDataRows, List.mem_map] at hmem
    obtain ⟨row, hrow, hrow2⟩ := hmem
    by_cases h : row.name = m
    · rw [if_pos h] at hrow2; subst hrow2
      exact absurd (hname.symm.trans h) hne
    · rw [if_neg h] at hrow2; subst hrow2
      exact ⟨row, hrow, hname, hsome, hact⟩
  · rintro ⟨row, hrow, hname, hsome, hact⟩
    refine ⟨row, ?_, hname, hsome, hact⟩
    rw [setRegDataRows, List.mem_map]
    exact ⟨row, hrow, by rw [if_neg (fun h => hne (hname.symm.trans h))]⟩

/-- Rewriting `regData` with a fresh (non-null) serialization keeps
the processed name pending if it was pending. -/
theorem pendingRow_setRegDataRows_self (db : List DBRow) (m s : String)
    (h : PendingRow db m) :
    PendingRow (setRegDataRows db m s) m := by
  obtain ⟨row, hrow, hname, _hsome, hact⟩ := h
  refine ⟨{ row with regData := some s }, ?_, hname, rfl, hact⟩
  rw [setRegDataRows, List.mem_map]
  exact ⟨row, hrow, by rw [if_pos hname]⟩

/-- None of the three row rewrites changes the immutable columns. -/
theorem skeleton_updates (db : List DBRow) (m s t : String) :
    skeleton (finishRows db m) = skeleton db
    ∧ skeleton (setRegDataRows db m s) = skeleton db
    ∧ skeleton (setUpdateTxRows db m t) = skeleton db := by
  refine ⟨?_, ?_, ?_⟩ <;>
    · simp only [skeleton, finishRows, setRegDataRows, setUpdateTxRows,
        List.map_map]
      apply List.map_congr_left
      intro row _
      by_cases h : row.name = m <;> simp [rowKey, h]

/-- The nym/cred lookup reads only the immutable columns. -/
theorem lookupNymCred_skeleton (n : String) :
    ∀ d1 d2, skeleton d1 = skeleton d2 →
      lookupNymCred d1 n = lookupNymCred d2 n := by
  intro d1
  induction d1 with
  | nil =>
    intro d2 h
    cases d2 with
    | nil => rfl
    | cons r2 t2 => simp [skeleton] at h
  | cons r1 t1 ih =>
    intro d2 h
    cases d2 with
    | nil => simp [skeleton] at h
    | cons r2 t2 =>
      simp only [skeleton, List.map_cons, List.cons.injEq] at h
      obtain ⟨hk, ht⟩ := h
      have hname : r1.name = r2.name := congrArg Prod.fst hk
      have hnym : r1.nym = r2.nym := congrArg (fun p => p.2.1) hk
      have hcred : r1.cred = r2.cred := congrArg (fun p => p.2.2) hk
      unfold lookupNymCred
      by_cases hn : r1.name = n
      · rw [if_pos hn, if_pos (hname ▸ hn), hnym, hcred]
      · rw [if_neg hn, if_neg (hname ▸ hn)]
        exact ih t2 ht

/-- In every case, `updateName` either classifiably escapes with an
exception (iff `updThrows` says so) or returns a table that is either
unchanged or has a transaction id written under the updated name. -/
theorem updateName_dichotomy (env : UpdEnv) (db : List DBRow)
    (nym cred : String) :
    (updThrows env nym cred = true
      ∧ ∃ e, updateName env db nym cred = Except.error e)
    ∨ (updThrows env nym cred = false
      ∧ ∃ b db2, updateName env db nym cred = Except.ok (b, db2)
          ∧ (db2 = db ∨ ∃ t, db2 = setUpdateTxRows db (getNameFor cred) t)) := by
  by_cases hv : env.addrValid (env.nymSource nym) = true
      ∧ env.addrIsMine (env.nymSource nym) = true
  · by_cases hw : env.needWalletPassphrase = true
    · exact Or.inr ⟨by simp [updThrows, hv.1, hv.2, hw],
        false, db, by simp [updateName, hv.1, hv.2, hw], Or.inl rfl⟩
    · cases hs : env.signMessage (env.nymSource nym) cred with
      | error e =>
        exact Or.inl ⟨by simp [updThrows, hv.1, hv.2, hw, hs],
          e, by simp [updateName, hv.1, hv.2, hw, hs]⟩
      | ok s =>
        cases he : env.execute (getNameFor cred) with
        | error e =>
          cases e with
          | noPrivateKey =>
            exact Or.inr ⟨by simp [updThrows, hv.1, hv.2, hw, hs, he],
              false, db, by simp [updateName, hv.1, hv.2, hw, hs, he], Or.inl rfl⟩
          | rpcError =>
            exact Or.inl ⟨by simp [updThrows, hv.1, hv.2, hw, hs, he],
              NmcErr.rpcError, by simp [updateName, hv.1, hv.2, hw, hs, he]⟩
          | stdError =>
            exact Or.inl ⟨by simp [updThrows, hv.1, hv.2, hw, hs, he],
              NmcErr.stdError, by simp [updateName, hv.1, hv.2, hw, hs, he]⟩
          | nameNotFound =>
            exact Or.inl ⟨by simp [updThrows, hv.1, hv.2, hw, hs, he],
              NmcErr.nameNotFound, by simp [updateName, hv.1, hv.2, hw, hs, he]⟩
          | jsonParseError =>
            exact Or.inl ⟨by simp [updThrows, hv.1, hv.2, hw, hs, he],
              NmcErr.jsonParseError, by simp [updateName, hv.1, hv.2, hw, hs, he]⟩
        | ok txid =>
          exact Or.inr ⟨by simp [updThrows, hv.1, hv.2, hw, hs, he],
            true, setUpdateTxRows db (getNameFor cred) txid,
            by simp [updateName, hv.1, hv.2, hw, hs, he], Or.inr ⟨txid, rfl⟩⟩
  · exact Or.inr ⟨by simp [updThrows, hv],
      false, db, by simp [updateName, hv], Or.inl rfl⟩

/-- `updateName` only ever returns the table unchanged or with a
transaction id written under the updated name. -/
theorem updateName_ok_shape (env : UpdEnv) (db : List DBRow)
    (nym cred : String) (b : Bool) (db2 : List DBRow)
    (h : updateName env db nym cred = Except.ok (b, db2)) :
    db2 = db ∨ ∃ t, db2 = setUpdateTxRows db (getNameFor cred) t := by
  rcases updateName_dichotomy env db nym cred with ⟨_, e, he⟩ | ⟨_, b2, db3, hok, hsh⟩
  · rw [he] at h; exact Except.noConfusion h
  · have h3 := hok.symm.trans h
    injection h3 with h2
    have hdb : db3 = db2 := congrArg Prod.snd h2
    rw [← hdb]
    exact hsh

/-- `updateName` preserves pending marks for every name: either the
table is unchanged or only `updateTx` columns were written. -/
theorem updateName_pendingRow (env : UpdEnv) (db : List DBRow)
    (nym cred : String) (b : Bool) (db2 : List DBRow)
    (h : updateName env db nym cred = Except.ok (b, db2)) (n : String) :
    PendingRow db2 n ↔ PendingRow db n := by
  rcases updateName_ok_shape env db nym cred b db2 h with h2 | ⟨t, h2⟩
  · rw [h2]
  · rw [h2]; exact pendingRow_setUpdateTxRows db (getNameFor cred) t n

/-- `updateName` never changes the immutable columns. -/
theorem updateName_skeleton (env : UpdEnv) (db : List DBRow)
    (nym cred : String) (b : Bool) (db2 : List DBRow)
    (h : updateName env db nym cred = Except.ok (b, db2)) :
    skeleton db2 = skeleton db := by
  rcases updateName_ok_shape env db nym cred b db2 h with h2 | ⟨t, h2⟩
  · rw [h2]
  · rw [h2]; exact (skeleton_updates db (getNameFor cred) "" t).2.2

/-- Whether `updateName` escapes with an exception is decided by
`updThrows`, independently of the table handed to it. -/
theorem updateName_throws_iff (env : UpdEnv) (db : List DBRow)
    (nym cred : String) :
    (updThrows env nym cred = true → ∃ e, updateName env db nym cred = Except.error e)
    ∧ (updThrows env nym cred = false →
        ∃ b db2, updateName env db nym cred = Except.ok (b, db2)) := by
  rcases updateName_dichotomy env db nym cred with ⟨h1, h2⟩ | ⟨h1, b, db2, h2, _⟩
  · exact ⟨fun _ => h2, fun hf => absurd h1 (by simp [hf])⟩
  · exact ⟨fun ht => absurd h1 (by simp [ht]), fun _ => ⟨b, db2, h2⟩⟩

/-- If the signing primitive cannot fail and the update execution
fails only ever for a missing private key, `updateName` never escapes
with an exception. -/
theorem updateName_total (env : UpdEnv)
    (hs : ∀ a m, ∃ s, env.signMessage a m = Except.ok s)
    (he : ∀ nm e, env.execute nm = Except.error e → e = NmcErr.noPrivateKey) :
    ∀ db nym cred, ∃ b db2, updateName env db nym cred = Except.ok (b, db2) := by
  intro db nym cred
  apply (updateName_throws_iff env db nym cred).2
  unfold updThrows
  by_cases hv : env.addrValid (env.nymSource nym) = true
      ∧ env.addrIsMine (env.nymSource nym) = true
  · by_cases hw : env.needWalletPassphrase = true
    · simp [hv.1, hv.2, hw]
    · obtain ⟨s, hsig⟩ := hs (env.nymSource nym) cred
      cases hex : env.execute (getNameFor cred) with
      | error e =>
        have := he (getNameFor cred) e hex
        subst this
        simp [hv.1, hv.2, hw, hsig, hex]
      | ok txid => simp [hv.1, hv.2, hw, hsig, hex]
  · simp [hv]

theorem inLedger_cons (x : Reg) (xs : List Reg) (n : String) :
    InLedger (x :: xs) n ↔ x.name = n ∨ InLedger xs n := by
  constructor
  · rintro ⟨r, hm, hn⟩
    rcases List.mem_cons.mp hm with h | h
    · exact Or.inl (h ▸ hn)
    · exact Or.inr ⟨r, h, hn⟩
  · rintro (h | ⟨r, h, hn⟩)
    · exact ⟨x, List.mem_cons_self x xs, h⟩
    · exact ⟨r, List.mem_cons_of_mem x h, hn⟩

theorem inLedger_append (xs ys : List Reg) (n : String) :
    InLedger (xs ++ ys) n ↔ InLedger xs n ∨ InLedger ys n := by
  constructor
  · rintro ⟨r, hm, hn⟩
    rcases List.mem_append.mp hm with h | h
    exacts [Or.inl ⟨r, h, hn⟩, Or.inr ⟨r, h, hn⟩]
  · rintro (⟨r, h, hn⟩ | ⟨r, h, hn⟩)
    exacts [⟨r, List.mem_append.mpr (Or.inl h), hn⟩,
            ⟨r, List.mem_append.mpr (Or.inr h), hn⟩]

/-- Per-entry summary of the advance step, assuming `updateName` does
not throw: a finished entry is removed and its name's pending mark is
cleared while every other pending mark is preserved; any other entry
is kept under its own name, pending marks of other names are
preserved, and its own pending mark survives if it was set. -/
theorem processEntry_summary (env : Env)
    (hupd : ∀ db nym cred, ∃ b db2,
      updateName env.upd db nym cred = Except.ok (b, db2))
    (db : List DBRow) (r : Reg) :
    ((processEntry env db r).1 = none
      ∧ ∀ n, (PendingRow (processEntry env db r).2.1 n ↔
          (n ≠ r.name ∧ PendingRow db n)))
    ∨ ((∃ k, (processEntry env db r).1 = some k ∧ k.name = r.name)
      ∧ (∀ n, n ≠ r.name →
          (PendingRow (processEntry env db r).2.1 n ↔ PendingRow db n))
      ∧ (PendingRow db r.name →
          PendingRow (processEntry env db r).2.1 r.name)) := by
  cases hf : env.isFinished r with
  | error e =>
    right
    have h1 : (processEntry env db r).1 = some r := by simp [processEntry, hf]
    have h2 : (processEntry env db r).2.1 = db := by simp [processEntry, hf]
    exact ⟨⟨r, h1, rfl⟩, fun n _ => by rw [h2], fun h => by rw [h2]; exact h⟩
  | ok fin =>
    cases fin with
    | true =>
      left
      obtain ⟨b, db2, hok⟩ := hupd (finishRows db r.name)
        (lookupNymCred (finishRows db r.name) r.name).1
        (lookupNymCred (finishRows db r.name) r.name).2
      have h1 : (processEntry env db r).1 = none := by
        simp [processEntry, hf, hok]
      have h2 : (processEntry env db r).2.1 = db2 := by
        simp [processEntry, hf, hok]
      refine ⟨h1, fun n => ?_⟩
      rw [h2, updateName_pendingRow _ _ _ _ _ _ hok n]
      exact pendingRow_finishRows db r.name n
    | false =>
      cases hc : env.canActivate r with
      | error e =>
        right
        have h1 : (processEntry env db r).1 = some r := by
          simp [processEntry, hf, hc]
        have h2 : (processEntry env db r).2.1 = db := by
          simp [processEntry, hf, hc]
        exact ⟨⟨r, h1, rfl⟩, fun n _ => by rw [h2], fun h => by rw [h2]; exact h⟩
      | ok ca =>
        cases ca with
        | false =>
          right
          have h1 : (processEntry env db r).1 = some r := by
            simp [processEntry, hf, hc]
          have h2 : (processEntry env db r).2.1 = db := by
            simp [processEntry, hf, hc]
          exact ⟨⟨r, h1, rfl⟩, fun n _ => by rw [h2],
                 fun h => by rw [h2]; exact h⟩
        | true =>
          cases ha : env.activate r with
          | error e =>
            right
            have h1 : (processEntry env db r).1 = some r := by
              simp [processEntry, hf, hc, ha]
            have h2 : (processEntry env db r).2.1 = db := by
              simp [processEntry, hf, hc, ha]
            exact ⟨⟨r, h1, rfl⟩, fun n _ => by rw [h2],
                   fun h => by rw [h2]; exact h⟩
          | ok st2 =>
            right
            have h1 : (processEntry env db r).1 = some { r with st := st2 } := by
              simp [processEntry, hf, hc, ha]
            have h2 : (processEntry env db r).2.1
                = setRegDataRows db r.name (env.serialize { r with st := st2 }) := by
              simp [processEntry, hf, hc, ha]
            refine ⟨⟨{ r with st := st2 }, h1, rfl⟩,
                    fun n hn => ?_, fun h => ?_⟩
            · rw [h2]; exact pendingRow_setRegDataRows_ne db r.name _ n hn
            · rw [h2]; exact pendingRow_setRegDataRows_self db r.name _ h

/-- The advance loop, assuming the per-tick hypotheses (distinct
binding names, non-throwing update step): names absent from the
ledger keep their pending marks and stay absent, and names present in
the ledger with a set pending mark end the loop with ledger presence
and pending mark still agreeing. -/
theorem advanceLoop_char (env : Env)
    (hupd : ∀ db nym cred, ∃ b db2,
      updateName env.upd db nym cred = Except.ok (b, db2)) :
    ∀ (regs : List Reg) (db : List DBRow), (regs.map Reg.name).Nodup →
      ∀ n,
        (¬ InLedger regs n →
          ¬ InLedger (advanceLoop env db regs).1 n
          ∧ (PendingRow (advanceLoop env db regs).2.1 n ↔ PendingRow db n))
        ∧ (InLedger regs n → PendingRow db n →
            (InLedger (advanceLoop env db regs).1 n ↔
              PendingRow (advanceLoop env db regs).2.1 n)) := by
  intro regs
  induction regs with
  | nil =>
    intro db _ n
    refine ⟨fun h => ⟨?_, Iff.rfl⟩, fun h _ => absurd h ?_⟩
    · simp [advanceLoop, InLedger]
    · simp [InLedger]
  | cons r rs ih =>
    intro db hnd n
    rw [List.map_cons, List.nodup_cons] at hnd
    obtain ⟨hnm, hndrs⟩ := hnd
    have hadv1 : (advanceLoop env db (r :: rs)).1
        = (processEntry env db r).1.toList
          ++ (advanceLoop env (processEntry env db r).2.1 rs).1 := rfl
    have hadv2 : (advanceLoop env db (r :: rs)).2.1
        = (advanceLoop env (processEntry env db r).2.1 rs).2.1 := rfl
    rcases processEntry_summary env hupd db r with
      ⟨hk, hdb⟩ | ⟨⟨k, hk, hkname⟩, hdbne, hdbself⟩
    · -- the entry was finished and removed
      constructor
      · intro hnl
        have hne : r.name ≠ n := fun h => hnl ((inLedger_cons r rs n).mpr (Or.inl h))
        have hnrs : ¬ InLedger rs n :=
          fun h => hnl ((inLedger_cons r rs n).mpr (Or.inr h))
        obtain ⟨ih1, ih2⟩ := (ih (processEntry env db r).2.1 hndrs n).1 hnrs
        refine ⟨?_, ?_⟩
        · rw [hadv1, hk]
          simpa using ih1
        · rw [hadv2]
          rw [ih2, hdb n]
          exact and_iff_right (fun h => hne h.symm)
      · intro hl hp
        by_cases hn : n = r.name
        · have hnrs : ¬ InLedger rs n := by
            rw [inLedger_iff_mem_map, hn]
            exact hnm
          obtain ⟨ih1, ih2⟩ := (ih (processEntry env db r).2.1 hndrs n).1 hnrs
          refine iff_of_false ?_ ?_
          · rw [hadv1, hk]
            simpa using ih1
          · rw [hadv2, ih2, hdb n]
            rintro ⟨h1, _⟩
            exact h1 hn
        · have hinrs : InLedger rs n := by
            rcases (inLedger_cons r rs n).mp hl with h | h
            · exact absurd h.symm hn
            · exact h
          have hpp : PendingRow (processEntry env db r).2.1 n :=
            (hdb n).mpr ⟨hn, hp⟩
          have := (ih (processEntry env db r).2.1 hndrs n).2 hinrs hpp
          rw [hadv1, hadv2, hk]
          simpa using this
    · -- the entry was kept (possibly with fresh progress state)
      constructor
      · intro hnl
        have hne : r.name ≠ n := fun h => hnl ((inLedger_cons r rs n).mpr (Or.inl h))
        have hnrs : ¬ InLedger rs n :=
          fun h => hnl ((inLedger_cons r rs n).mpr (Or.inr h))
        obtain ⟨ih1, ih2⟩ := (ih (processEntry env db r).2.1 hndrs n).1 hnrs
        refine ⟨?_, ?_⟩
        · rw [hadv1, hk]
          intro h
          rcases (inLedger_cons k _ n).mp (by simpa using h) with h2 | h2
          · exact hne (hkname ▸ h2)
          · exact ih1 h2
        · rw [hadv2, ih2]
          exact hdbne n (fun h => hne h.symm)
      · intro hl hp
        by_cases hn : n = r.name
        · have hnrs : ¬ InLedger rs n := by
            rw [inLedger_iff_mem_map, hn]
            exact hnm
          obtain ⟨ih1, ih2⟩ := (ih (processEntry env db r).2.1 hndrs n).1 hnrs
          refine iff_of_true ?_ ?_
          · rw [hadv1, hk]
            exact (inLedger_append _ _ n).mpr
              (Or.inl ((inLedger_cons k [] n).mpr (Or.inl (hkname.trans hn.symm))))
          · rw [hadv2, ih2]
            exact hn ▸ hdbself (hn ▸ hp)
        · have hinrs : InLedger rs n := by
            rcases (inLedger_cons r rs n).mp hl with h | h
            · exact absurd h.symm hn
            · exact h
          have hpp : PendingRow (processEntry env db r).2.1 n :=
            (hdbne n hn).mpr hp
          have hiff := (ih (processEntry env db r).2.1 hndrs n).2 hinrs hpp
          rw [hadv1, hadv2, hk]
          constructor
          · intro h
            rcases (inLedger_cons k _ n).mp (by simpa using h) with h2 | h2
            · exact absurd (hkname.symm.trans h2).symm hn
            · exact hiff.mp h2
          · intro h
            exact (inLedger_append _ _ n).mpr (Or.inr (hiff.mpr h))

/-- The §3 mirror invariant is preserved by the advance loop. -/
theorem advanceLoop_mirrors (env : Env)
    (hupd : ∀ db nym cred, ∃ b db2,
      updateName env.upd db nym cred = Except.ok (b, db2))
    (regs : List Reg) (db : List DBRow)
    (hnd : (regs.map Reg.name).Nodup)
    (hinv : ∀ n, InLedger regs n ↔ PendingRow db n) :
    ∀ n, InLedger (advanceLoop env db regs).1 n ↔
      PendingRow (advanceLoop env db regs).2.1 n := by
  intro n
  by_cases hn : InLedger regs n
  · exact (advanceLoop_char env hupd regs db hnd n).2 hn ((hinv n).mp hn)
  · obtain ⟨h1, h2⟩ := (advanceLoop_char env hupd regs db hnd n).1 hn
    exact iff_of_false h1 (fun hp => hn ((hinv n).mpr (h2.mp hp)))

/-- One advance step never changes the immutable columns of the
table. -/
theorem processEntry_skeleton (env : Env) (db : List DBRow) (r : Reg) :
    skeleton (processEntry env db r).2.1 = skeleton db := by
  cases hf : env.isFinished r with
  | error e => simp [processEntry, hf]
  | ok fin =>
    cases fin with
    | true =>
      cases hok : updateName env.upd (finishRows db r.name)
          (lookupNymCred (finishRows db r.name) r.name).1
          (lookupNymCred (finishRows db r.name) r.name).2 with
      | error e =>
        have h2 : (processEntry env db r).2.1 = finishRows db r.name := by
          simp [processEntry, hf, hok]
        rw [h2]
        exact (skeleton_updates db r.name "" "").1
      | ok p =>
        obtain ⟨b, db2⟩ := p
        have h2 : (processEntry env db r).2.1 = db2 := by
          simp [processEntry, hf, hok]
        rw [h2, updateName_skeleton _ _ _ _ _ _ hok]
        exact (skeleton_updates db r.name "" "").1
    | false =>
      cases hc : env.canActivate r with
      | error e => simp [processEntry, hf, hc]
      | ok ca =>
        cases ca with
        | false => simp [processEntry, hf, hc]
        | true =>
          cases ha : env.activate r with
          | error e => simp [processEntry, hf, hc, ha]
          | ok st2 =>
            have h2 : (processEntry env db r).2.1
                = setRegDataRows db r.name
                    (env.serialize { r with st := st2 }) := by
              simp [processEntry, hf, hc, ha]
            rw [h2]
            exact (skeleton_updates db r.name _ "").2.1

/-- The whole advance loop never changes the immutable columns. -/
theorem advanceLoop_skeleton (env : Env) :
    ∀ (regs : List Reg) (db : List DBRow),
      skeleton (advanceLoop env db regs).2.1 = skeleton db := by
  intro regs
  induction regs with
  | nil => intro db; rfl
  | cons r rs ih =>
    intro db
    have h : (advanceLoop env db (r :: rs)).2.1
        = (advanceLoop env (processEntry env db r).2.1 rs).2.1 := rfl
    rw [h, ih, processEntry_skeleton]

/-- A kept entry keeps its registered name. -/
theorem processEntry_keep_name (env : Env) (db : List DBRow) (r k : Reg)
    (h : (processEntry env db r).1 = some k) : k.name = r.name := by
  cases hf : env.isFinished r with
  | error e =>
    have h1 : (processEntry env db r).1 = some r := by simp [processEntry, hf]
    rw [h1] at h
    injection h with h2
    rw [← h2]
  | ok fin =>
    cases fin with
    | true =>
      cases hok : updateName env.upd (finishRows db r.name)
          (lookupNymCred (finishRows db r.name) r.name).1
          (lookupNymCred (finishRows db r.name) r.name).2 with
      | error e =>
        have h1 : (processEntry env db r).1 = some r := by
          simp [processEntry, hf, hok]
        rw [h1] at h
        injection h with h2
        rw [← h2]
      | ok p =>
        obtain ⟨b, db2⟩ := p
        have h1 : (processEntry env db r).1 = none := by
          simp [processEntry, hf, hok]
        rw [h1] at h
        exact Option.noConfusion h
    | false =>
      cases hc : env.canActivate r with
      | error e =>
        have h1 : (processEntry env db r).1 = some r := by
          simp [processEntry, hf, hc]
        rw [h1] at h
        injection h with h2
        rw [← h2]
      | ok ca =>
        cases ca with
        | false =>
          have h1 : (processEntry env db r).1 = some r := by
            simp [processEntry, hf, hc]
          rw [h1] at h
          injection h with h2
          rw [← h2]
        | true =>
          cases ha : env.activate r with
          | error e =>
            have h1 : (processEntry env db r).1 = some r := by
              simp [processEntry, hf, hc, ha]
            rw [h1] at h
            injection h with h2
            rw [← h2]
          | ok st2 =>
            have h1 : (processEntry env db r).1 = some { r with st := st2 } := by
              simp [processEntry, hf, hc, ha]
            rw [h1] at h
            injection h with h2
            rw [← h2]

/-- Every entry the advance loop keeps carries the name of one of the
entries it started from. -/
theorem advanceLoop_names (env : Env) :
    ∀ (regs : List Reg) (db : List DBRow) (k : Reg),
      k ∈ (advanceLoop env db regs).1 → k.name ∈ regs.map Reg.name := by
  intro regs
  induction regs with
  | nil => intro db k h; exact absurd h (List.not_mem_nil k)
  | cons r rs ih =>
    intro db k h
    have hout : (advanceLoop env db (r :: rs)).1
        = (processEntry env db r).1.toList
          ++ (advanceLoop env (processEntry env db r).2.1 rs).1 := rfl
    rw [hout] at h
    rcases List.mem_append.mp h with h2 | h2
    · cases hk : (processEntry env db r).1 with
      | none => rw [hk] at h2; exact absurd h2 (List.not_mem_nil k)
      | some k2 =>
        rw [hk] at h2
        rw [Option.toList_some, List.mem_singleton] at h2
        subst h2
        rw [List.map_cons, processEntry_keep_name env db r k hk]
        exact List.mem_cons_self _ _
    · rw [List.map_cons]
      exact List.mem_cons_of_mem _ (ih (processEntry env db r).2.1 k h2)

/-- Filtering for another binding's update-invocation events yields
nothing from one advance step. -/
theorem processEntry_events_other (env : Env) (db : List DBRow) (r : Reg)
    (nm : String) (hne : r.name ≠ nm) :
    ((processEntry env db r).2.2).filter (isUpdInvFor nm) = [] := by
  cases hf : env.isFinished r with
  | error e => simp [processEntry, hf]
  | ok fin =>
    cases fin with
    | true =>
      cases hok : updateName env.upd (finishRows db r.name)
          (lookupNymCred (finishRows db r.name) r.name).1
          (lookupNymCred (finishRows db r.name) r.name).2 with
      | error e =>
        have h2 : (processEntry env db r).2.2
            = [Ev.updateNameInvoked r.name
                (lookupNymCred (finishRows db r.name) r.name).1
                (lookupNymCred (finishRows db r.name) r.name).2] := by
          simp [processEntry, hf, hok]
        rw [h2]
        simp [isUpdInvFor, hne]
      | ok p =>
        obtain ⟨b, db2⟩ := p
        have h2 : (processEntry env db r).2.2
            = [Ev.updateNameInvoked r.name
                (lookupNymCred (finishRows db r.name) r.name).1
                (lookupNymCred (finishRows db r.name) r.name).2] := by
          simp [processEntry, hf, hok]
        rw [h2]
        simp [isUpdInvFor, hne]
    | false =>
      cases hc : env.canActivate r with
      | error e => simp [processEntry, hf, hc]
      | ok ca =>
        cases ca with
        | false => simp [processEntry, hf, hc]
        | true =>
          cases ha : env.activate r with
          | error e =>
            have h2 : (processEntry env db r).2.2 = [Ev.activateOp r.name] := by
              simp [processEntry, hf, hc, ha]
            rw [h2]
            simp [isUpdInvFor]
          | ok st2 =>
            have h2 : (processEntry env db r).2.2 = [Ev.activateOp r.name] := by
              simp [processEntry, hf, hc, ha]
            rw [h2]
            simp [isUpdInvFor]

/-- Filtering for a name that belongs to none of the processed
entries yields nothing from the whole advance loop. -/
theorem advanceLoop_events_other (env : Env) (nm : String) :
    ∀ (regs : List Reg) (db : List DBRow), (∀ x ∈ regs, x.name ≠ nm) →
      ((advanceLoop env db regs).2.2).filter (isUpdInvFor nm) = [] := by
  intro regs
  induction regs with
  | nil => intro db _; rfl
  | cons r rs ih =>
    intro db hall
    have hout : (advanceLoop env db (r :: rs)).2.2
        = (processEntry env db r).2.2
          ++ (advanceLoop env (processEntry env db r).2.1 rs).2.2 := rfl
    rw [hout, List.filter_append,
        processEntry_events_other env db r nm (hall r (List.mem_cons_self r rs)),
        ih (processEntry env db r).2.1
          (fun x hx => hall x (List.mem_cons_of_mem r hx))]
    rfl

/-- The unlock step emits only prompt and low-level unlock events. -/
theorem unlockRun_events (env : UnlockEnv) (nm : String) :
    ∀ (fuel a : Nat) (res : UnlockRes) (evs : List Ev),
      unlockRun env a fuel = some (res, evs) →
      evs.filter (isUpdInvFor nm) = [] := by
  intro fuel
  induction fuel with
  | zero => intro a res evs h; exact Option.noConfusion h
  | succ f ih =>
    intro a res evs h
    by_cases hneed : env.needWalletPassphrase = true
    · cases hp : env.prompt a with
      | cancelled =>
        have hstep : unlockRun env a (f + 1)
            = some (UnlockRes.unlockThrew, [Ev.promptShown a]) := by
          simp [unlockRun, hneed, hp]
        rw [h] at hstep
        injection hstep with h2
        injection h2 with h3 h4
        rw [h4]
        rfl
      | entered pwd =>
        cases hl : env.lowUnlock pwd with
        | wrongPass =>
          cases hrec : unlockRun env (a + 1) f with
          | none =>
            have hstep : unlockRun env a (f + 1) = none := by
              simp [unlockRun, hneed, hp, hl, hrec]
            rw [h] at hstep
            exact Option.noConfusion hstep
          | some p =>
            obtain ⟨res2, evs2⟩ := p
            have hstep : unlockRun env a (f + 1)
                = some (res2, Ev.promptShown a :: Ev.lowUnlockCall pwd :: evs2) := by
              simp [unlockRun, hneed, hp, hl, hrec]
            rw [h] at hstep
            injection hstep with h2
            injection h2 with h3 h4
            rw [h4]
            have h5 := ih (a + 1) res2 evs2 hrec
            simp [List.filter_cons, isUpdInvFor, h5]
        | ok =>
          have hstep : unlockRun env a (f + 1)
              = some (UnlockRes.returnedNormally,
                      [Ev.promptShown a, Ev.lowUnlockCall pwd]) := by
            simp [unlockRun, hneed, hp, hl]
          rw [h] at hstep
          injection hstep with h2
          injection h2 with h3 h4
          rw [h4]
          rfl
        | rpcErr =>
          have hstep : unlockRun env a (f + 1)
              = some (UnlockRes.returnedNormally,
                      [Ev.promptShown a, Ev.lowUnlockCall pwd]) := by
            simp [unlockRun, hneed, hp, hl]
          rw [h] at hstep
          injection hstep with h2
          injection h2 with h3 h4
          rw [h4]
          rfl
        | stdErr =>
          have hstep : unlockRun env a (f + 1)
              = some (UnlockRes.returnedNormally,
                      [Ev.promptShown a, Ev.lowUnlockCall pwd]) := by
            simp [unlockRun, hneed, hp, hl]
          rw [h] at hstep
          injection hstep with h2
          injection h2 with h3 h4
          rw [h4]
          rfl
    · cases hl : env.lowUnlock "" with
      | wrongPass =>
        cases hrec : unlockRun env (a + 1) f with
        | none =>
          have hstep : unlockRun env a (f + 1) = none := by
            simp [unlockRun, hneed, hl, hrec]
          rw [h] at hstep
          exact Option.noConfusion hstep
        | some p =>
          obtain ⟨res2, evs2⟩ := p
          have hstep : unlockRun env a (f + 1)
              = some (res2, Ev.lowUnlockCall "" :: evs2) := by
            simp [unlockRun, hneed, hl, hrec]
          rw [h] at hstep
          injection hstep with h2
          injection h2 with h3 h4
          rw [h4]
          have h5 := ih (a + 1) res2 evs2 hrec
          simp [List.filter_cons, isUpdInvFor, h5]
      | ok =>
        have hstep : unlockRun env a (f + 1)
            = some (UnlockRes.returnedNormally, [Ev.lowUnlockCall ""]) := by
          simp [unlockRun, hneed, hl]
        rw [h] at hstep
        injection hstep with h2
        injection h2 with h3 h4
        rw [h4]
        rfl
      | rpcErr =>
        have hstep : unlockRun env a (f + 1)
            = some (UnlockRes.returnedNormally, [Ev.lowUnlockCall ""]) := by
          simp [unlockRun, hneed, hl]
        rw [h] at hstep
        injection hstep with h2
        injection h2 with h3 h4
        rw [h4]
        rfl
      | stdErr =>
        have hstep : unlockRun env a (f + 1)
            = some (UnlockRes.returnedNormally, [Ev.lowUnlockCall ""]) := by
          simp [unlockRun, hneed, hl]
        rw [h] at hstep
        injection hstep with h2
        injection h2 with h3 h4
        rw [h4]
        rfl

/-- Characterization of the advance step on a finished entry: exactly
one `updateName` invocation is recorded, and the entry is removed iff
the invocation did not escape with an exception. -/
theorem processEntry_finished_char (env : Env) (db : List DBRow) (r : Reg)
    (hf : env.isFinished r = Except.ok true) :
    (processEntry env db r).2.2
      = [Ev.updateNameInvoked r.name
          (lookupNymCred (finishRows db r.name) r.name).1
          (lookupNymCred (finishRows db r.name) r.name).2]
    ∧ (updThrows env.upd (lookupNymCred (finishRows db r.name) r.name).1
          (lookupNymCred (finishRows db r.name) r.name).2 = true →
        (processEntry env db r).1 = some r)
    ∧ (updThrows env.upd (lookupNymCred (finishRows db r.name) r.name).1
          (lookupNymCred (finishRows db r.name) r.name).2 = false →
        (processEntry env db r).1 = none) := by
  rcases updateName_dichotomy env.upd (finishRows db r.name)
      (lookupNymCred (finishRows db r.name) r.name).1
      (lookupNymCred (finishRows db r.name) r.name).2 with
    ⟨h1, e, h2⟩ | ⟨h1, b, db2, h2, _⟩
  · exact ⟨by simp [processEntry, hf, h2],
           fun _ => by simp [processEntry, hf, h2],
           fun hfalse => absurd h1 (by simp [hfalse])⟩
  · exact ⟨by simp [processEntry, hf, h2],
           fun htrue => absurd h1 (by simp [htrue]),
           fun _ => by simp [processEntry, hf, h2]⟩

/-- If some entry of the scan list is finished, the scan (when it
succeeds) reports that an unlock is needed. -/
theorem scanNeedUnlock_finished (env : Env) :
    ∀ (regs : List Reg) (b : Bool), scanNeedUnlock env regs = Except.ok b →
      ∀ r ∈ regs, env.isFinished r = Except.ok true → b = true := by
  intro regs
  induction regs with
  | nil => intro b h r hr; exact absurd hr (List.not_mem_nil r)
  | cons x rs ih =>
    intro b h r hr hfin
    cases hc : env.canActivate x with
    | error e => simp [scanNeedUnlock, hc] at h
    | ok ca =>
      cases hif : (if ca then Except.ok true else env.isFinished x) with
      | error e => simp [scanNeedUnlock, hc, hif] at h
      | ok here =>
        cases hrest : scanNeedUnlock env rs with
        | error e => simp [scanNeedUnlock, hc, hif, hrest] at h
        | ok brest =>
          have hstep : scanNeedUnlock env (x :: rs) = Except.ok (here || brest) := by
            simp only [scanNeedUnlock, hc, hif, hrest]
          rw [h] at hstep
          injection hstep with hb
          rcases List.mem_cons.mp hr with h2 | h2
          · subst h2
            have hh : here = true := by
              cases ca with
              | true => injection hif with h3; exact h3.symm
              | false =>
                rw [if_neg (by simp)] at hif
                rw [hfin] at hif
                injection hif with h3
                exact h3.symm
            rw [hb, hh]
            rfl
          · have hbrest : brest = true := ih brest hrest r h2 hfin
            rw [hb, hbrest, Bool.or_true]

/-- C10: each of the three `UPDATE ... WHERE name = :name` statements
of the module — the finished step's deactivation, the activation
step's `regData` rewrite, and `updateName`'s transaction-id write —
rewrites every persisted row carrying the given name and leaves every
row with a different name untouched. -/
theorem name_keyed_row_updates (db : List DBRow) (nm s txid : String) (i : Nat) :
    (finishRows db nm)[i]? = (db[i]?).map
        (fun row => if row.name = nm then { row with regData := none, active := true } else row)
    ∧ (setRegDataRows db nm s)[i]? = (db[i]?).map
        (fun row => if row.name = nm then { row with regData := some s } else row)
    ∧ (setUpdateTxRows db nm txid)[i]? = (db[i]?).map
        (fun row => if row.name = nm then { row with updateTx := some txid } else row) :=
  ⟨by simp [finishRows], by simp [setRegDataRows], by simp [setUpdateTxRows]⟩

/-! ### C8: update failing for lack of a private key -/

/-- C8: when the address checks pass, the wallet is unlocked and the
`name_update` execution throws `NoPrivateKey`, `updateName` catches it
and returns `false` without any exception escaping, and the table is
returned unchanged: no transaction id is written, so a row that was
`active = true` with a null `updateTx` stays exactly that way. -/
theorem no_private_key_returns_false (env : UpdEnv) (db : List DBRow)
    (nym cred s : String)
    (hv : env.addrValid (env.nymSource nym) = true)
    (hm : env.addrIsMine (env.nymSource nym) = true)
    (hw : env.needWalletPassphrase = false)
    (hs : env.signMessage (env.nymSource nym) cred = Except.ok s)
    (he : env.execute (getNameFor cred) = Except.error NmcErr.noPrivateKey) :
    updateName env db nym cred = Except.ok (false, db) := by
  simp [updateName, hv, hm, hw, hs, he]

theorem no_private_key_returns_false_witness :
    updateName updEnvNoKey [rowActiveNoTx] "n1" "c1" = Except.ok (false, [rowActiveNoTx]) :=
  no_private_key_returns_false updEnvNoKey [rowActiveNoTx] "n1" "c1" "sig1"
    rfl rfl rfl rfl rfl

/-! ### C4: the verifier's rejection paths -/

/-- C4: `verifyCredentialHashAtSource` returns `false` when the name
does not exist, when its value is not parseable JSON, when the
`"nmcsig"` field is absent or not a string, and when the address
holding the name differs from the claimed source; it returns `true`
only when the signature over the credential hash verifies against the
matching source address.  The embedding is a pure function of the
environment: no state is mutated. -/
theorem verify_rejection_paths (env : VerEnv) (hash source : String) :
    (env.getJsonSig (getNameFor hash) = Except.error NmcErr.nameNotFound →
      verifyCredentialHashAtSource env hash source = Except.ok false)
    ∧ (env.getJsonSig (getNameFor hash) = Except.error NmcErr.jsonParseError →
      verifyCredentialHashAtSource env hash source = Except.ok false)
    ∧ (env.getJsonSig (getNameFor hash) = Except.ok JsonVal.jnonstr →
      verifyCredentialHashAtSource env hash source = Except.ok false)
    ∧ (∀ sig addr, env.getJsonSig (getNameFor hash) = Except.ok (JsonVal.jstr sig) →
      env.getAddress (getNameFor hash) = Except.ok addr → source ≠ addr →
      verifyCredentialHashAtSource env hash source = Except.ok false)
    ∧ (verifyCredentialHashAtSource env hash source = Except.ok true →
      ∃ sig, env.getJsonSig (getNameFor hash) = Except.ok (JsonVal.jstr sig)
        ∧ env.getAddress (getNameFor hash) = Except.ok source
        ∧ env.verifySignature source hash sig = true) := by
  refine ⟨?_, ?_, ?_, ?_, ?_⟩
  · intro h; simp [verifyCredentialHashAtSource, h]
  · intro h; simp [verifyCredentialHashAtSource, h]
  · intro h; simp [verifyCredentialHashAtSource, h]
  · intro sig addr h1 h2 hne
    simp [verifyCredentialHashAtSource, h1, h2, hne]
  · intro h
    simp only [verifyCredentialHashAtSource] at h
    cases hj : env.getJsonSig (getNameFor hash) with
    | error e => rw [hj] at h; cases e <;> simp at h
    | ok sv =>
      rw [hj] at h
      cases sv with
      | jnonstr => simp at h
      | jstr sig =>
        cases ha : env.getAddress (getNameFor hash) with
        | error e => rw [ha] at h; cases e <;> simp at h
        | ok addr =>
          rw [ha] at h
          by_cases hs : source = addr
          · subst hs
            simp at h
            exact ⟨sig, rfl, rfl, h⟩
          · simp [hs] at h

theorem verify_rejection_paths_witness :
    verifyCredentialHashAtSource verEnvNotFound "c1" "addr1" = Except.ok false :=
  (verify_rejection_paths verEnvNotFound "c1" "addr1").1 rfl

/-! ### C5: a cancelled unlock aborts the whole tick -/

/-- C5: when the scan phase found work needing the wallet and the user
cancels the passphrase prompt, the whole tick aborts: the returned
state is the input state — in-memory ledger and every persisted row
unchanged — and beyond the dialog itself no operation happened (the
trace is just the prompt; in particular there is no register,
activate, or update invocation event). -/
theorem cancelled_unlock_aborts_tick (env : Env) (st : MgrState) (f : Nat)
    (hscan : scanNeedUnlock env st.pendingRegs = Except.ok true)
    (hneed : env.uenv.needWalletPassphrase = true)
    (hprompt : env.uenv.prompt 0 = PromptRes.cancelled) :
    timerUpdate env (f + 1) st = TickResult.done st [Ev.promptShown 0] := by
  simp [timerUpdate, unlockRun, hscan, hneed, hprompt]

theorem cancelled_unlock_aborts_tick_witness :
    timerUpdate envCancel 1 stOne = TickResult.done stOne [Ev.promptShown 0] :=
  cancelled_unlock_aborts_tick envCancel stOne 0 rfl rfl rfl

/-! ### C9: a cancelled unlock aborts the registration -/

/-- C9: when the user cancels the unlock prompt during
`startRegistration`, the call returns with the state unchanged — no
row inserted, nothing appended to the in-memory ledger — and the trace
shows only the prompt: in particular no registry register operation
(`Ev.registerOp`) was issued. -/
theorem cancelled_unlock_aborts_registration (env : Env) (st : MgrState)
    (nym cred : String) (f : Nat)
    (hneed : env.uenv.needWalletPassphrase = true)
    (hprompt : env.uenv.prompt 0 = PromptRes.cancelled) :
    startRegistration env (f + 1) st nym cred = some (st, [Ev.promptShown 0]) := by
  simp [startRegistration, unlockRun, hneed, hprompt]

theorem cancelled_unlock_aborts_registration_witness :
    startRegistration envCancel 1 stOne "n2" "c2" = some (stOne, [Ev.promptShown 0]) :=
  cancelled_unlock_aborts_registration envCancel stOne "n2" "c2" 0 rfl rfl

/-! ### C7: unlock with no passphrase required -/

/-- C7 counterexample: with a wallet that needs no passphrase,
`unlock ()` does invoke the underlying unlock primitive
(`unlocker.unlock ("")` — the `Ev.lowUnlockCall ""` in the trace), so
the claim that no call to the underlying unlock primitive occurs in
this case is false. -/
theorem no_passphrase_still_calls_primitive_cex :
    unlockRun uenvNoPass 0 1 =
      some (UnlockRes.returnedNormally, [Ev.lowUnlockCall ""]) := rfl

/-- C7 amended: when the wallet does not require a passphrase and the
underlying primitive succeeds, `unlock ()` returns normally, shows no
prompt, and is idempotent in its observable outcome — but it always
performs exactly one call to the underlying unlock primitive, with an
empty passphrase. -/
theorem no_passphrase_unlock_behaviour (env : UnlockEnv) (a f : Nat)
    (hneed : env.needWalletPassphrase = false)
    (hok : env.lowUnlock "" = LowUnlockRes.ok) :
    unlockRun env a (f + 1) =
      some (UnlockRes.returnedNormally, [Ev.lowUnlockCall ""]) := by
  simp [unlockRun, hneed, hok]

theorem no_passphrase_unlock_behaviour_witness :
    unlockRun uenvNoPass 3 1 =
      some (UnlockRes.returnedNormally, [Ev.lowUnlockCall ""]) :=
  no_passphrase_unlock_behaviour uenvNoPass 3 0 rfl rfl

/-! ### C6: transport failure during unlock -/

/-- C6 counterexample: the underlying unlock primitive throws a
transport error; `unlock ()` swallows it and returns normally, and the
tick then *continues*: the finished binding is processed (its row is
rewritten and it is removed from the ledger) rather than the operation
aborting without processing further. -/
theorem swallowed_unlock_error_continues_cex :
    timerUpdate envUnlockRpcFail 1 stOne =
      TickResult.done { db := [rowFinished], pendingRegs := [] }
        [Ev.promptShown 0, Ev.lowUnlockCall "pw",
         Ev.updateNameInvoked "ot/c1" "n1" "c1"] := rfl

/-- C6 amended: a transport failure raised by the underlying unlock
primitive is not re-thrown — `unlock ()` returns normally — but the
current operation is *not* aborted: the tick proceeds into the advance
phase exactly as if the unlock had succeeded (with the wallet possibly
still locked). -/
theorem unlock_transport_error_swallowed (env : Env) (st : MgrState)
    (f : Nat) (pwd : String)
    (hscan : scanNeedUnlock env st.pendingRegs = Except.ok true)
    (hneed : env.uenv.needWalletPassphrase = true)
    (hprompt : env.uenv.prompt 0 = PromptRes.entered pwd)
    (herr : env.uenv.lowUnlock pwd = LowUnlockRes.rpcErr) :
    unlockRun env.uenv 0 (f + 1) =
      some (UnlockRes.returnedNormally, [Ev.promptShown 0, Ev.lowUnlockCall pwd])
    ∧ timerUpdate env (f + 1) st =
        TickResult.done
          { db := (advanceLoop env st.db st.pendingRegs).2.1,
            pendingRegs := (advanceLoop env st.db st.pendingRegs).1 }
          ([Ev.promptShown 0, Ev.lowUnlockCall pwd]
            ++ (advanceLoop env st.db st.pendingRegs).2.2) := by
  have hu : unlockRun env.uenv 0 (f + 1) =
      some (UnlockRes.returnedNormally,
            [Ev.promptShown 0, Ev.lowUnlockCall pwd]) := by
    simp [unlockRun, hneed, hprompt, herr]
  exact ⟨hu, by simp [timerUpdate, hscan, hu]⟩

theorem unlock_transport_error_swallowed_witness :
    unlockRun envUnlockRpcFail.uenv 0 1 =
      some (UnlockRes.returnedNormally, [Ev.promptShown 0, Ev.lowUnlockCall "pw"])
    ∧ timerUpdate envUnlockRpcFail 1 stOne =
        TickResult.done
          { db := (advanceLoop envUnlockRpcFail stOne.db stOne.pendingRegs).2.1,
            pendingRegs := (advanceLoop envUnlockRpcFail stOne.db stOne.pendingRegs).1 }
          ([Ev.promptShown 0, Ev.lowUnlockCall "pw"]
            ++ (advanceLoop envUnlockRpcFail stOne.db stOne.pendingRegs).2.2) :=
  unlock_transport_error_swallowed envUnlockRpcFail stOne 0 "pw" rfl rfl rfl rfl

/-! ### C1: removal of a finished binding -/

/-- C1 counterexample: a finished binding whose `updateName`
invocation escapes with an exception (`signMessage` throws before the
`try` block).  The tick completes, the invocation happened, but the
binding is *not* removed from the in-memory ledger (`regOne` is still
in `pendingRegs`), refuting the claim that removal happens regardless
of the update invocation failing. -/
theorem thrown_update_keeps_binding_cex :
    timerUpdate envUpdThrows 1 stOne =
      TickResult.done { db := [rowFinished], pendingRegs := [regOne] }
        [Ev.lowUnlockCall "", Ev.updateNameInvoked "ot/c1" "n1" "c1"]
    ∧ envUpdThrows.isFinished regOne = Except.ok true := ⟨rfl, rfl⟩

/-- C1 amended: in a tick that completes with the unlock step
returning normally, a binding that is Finished triggers exactly one
`updateName` invocation (one `Ev.updateNameInvoked` event under its
name); the binding is removed from the in-memory ledger exactly when
that invocation *returns* (whether `true` or `false`) — when the
invocation throws, the binding stays in the ledger (the `erase` is
skipped) and will be reprocessed by a later tick. -/
theorem finished_binding_removal_and_single_update (env : Env) (st : MgrState)
    (ufuel : Nat) (r : Reg) (st2 : MgrState) (evs uevs : List Ev)
    (hnd : (st.pendingRegs.map Reg.name).Nodup)
    (hr : r ∈ st.pendingRegs)
    (hf : env.isFinished r = Except.ok true)
    (hu : unlockRun env.uenv 0 ufuel = some (UnlockRes.returnedNormally, uevs))
    (ht : timerUpdate env ufuel st = TickResult.done st2 evs) :
    (evs.filter (isUpdInvFor r.name)).length = 1
    ∧ (updThrows env.upd
          (lookupNymCred (finishRows st.db r.name) r.name).1
          (lookupNymCred (finishRows st.db r.name) r.name).2 = false →
        ¬ InLedger st2.pendingRegs r.name)
    ∧ (updThrows env.upd
          (lookupNymCred (finishRows st.db r.name) r.name).1
          (lookupNymCred (finishRows st.db r.name) r.name).2 = true →
        r ∈ st2.pendingRegs) := by
  cases hscan : scanNeedUnlock env st.pendingRegs with
  | error e =>
    exfalso
    simp only [timerUpdate, hscan] at ht
    exact TickResult.noConfusion ht
  | ok b =>
    have hb : b = true := scanNeedUnlock_finished env st.pendingRegs b hscan r hr hf
    subst hb
    simp only [timerUpdate, hscan, if_true] at ht
    rw [hu] at ht
    injection ht with h1 h2
    obtain ⟨l1, l2, hsplit⟩ := List.append_of_mem hr
    rw [hsplit, List.map_append, List.map_cons, List.nodup_append] at hnd
    obtain ⟨hnd1, hnd2c, hdisj⟩ := hnd
    rw [List.nodup_cons] at hnd2c
    obtain ⟨hrnotl2, hnd2⟩ := hnd2c
    have hrnotl1 : r.name ∉ l1.map Reg.name :=
      fun hm => hdisj hm (List.mem_cons_self _ _)
    have hA : advanceLoop env st.db st.pendingRegs
        = ((advanceLoop env st.db l1).1
             ++ ((processEntry env (advanceLoop env st.db l1).2.1 r).1.toList
                 ++ (advanceLoop env
                      (processEntry env (advanceLoop env st.db l1).2.1 r).2.1 l2).1),
           (advanceLoop env
             (processEntry env (advanceLoop env st.db l1).2.1 r).2.1 l2).2.1,
           (advanceLoop env st.db l1).2.2
             ++ ((processEntry env (advanceLoop env st.db l1).2.1 r).2.2
                 ++ (advanceLoop env
                      (processEntry env (advanceLoop env st.db l1).2.1 r).2.1 l2).2.2)) := by
      rw [hsplit, advanceLoop_append]
      rfl
    have hst2 : st2.pendingRegs
        = (advanceLoop env st.db l1).1
          ++ ((processEntry env (advanceLoop env st.db l1).2.1 r).1.toList
              ++ (advanceLoop env
                   (processEntry env (advanceLoop env st.db l1).2.1 r).2.1 l2).1) := by
      rw [← h1, hA]
    have hevs : evs
        = uevs ++ ((advanceLoop env st.db l1).2.2
            ++ ((processEntry env (advanceLoop env st.db l1).2.1 r).2.2
                ++ (advanceLoop env
                     (processEntry env (advanceLoop env st.db l1).2.1 r).2.1 l2).2.2)) := by
      rw [← h2, hA]
    have hP := processEntry_finished_char env (advanceLoop env st.db l1).2.1 r hf
    have hnc : lookupNymCred (finishRows (advanceLoop env st.db l1).2.1 r.name) r.name
        = lookupNymCred (finishRows st.db r.name) r.name := by
      apply lookupNymCred_skeleton
      rw [(skeleton_updates _ r.name "" "").1, (skeleton_updates _ r.name "" "").1,
          advanceLoop_skeleton]
    rw [hnc] at hP
    obtain ⟨hPev, hPkeepT, hPkeepF⟩ := hP
    have hfl1 : ((advanceLoop env st.db l1).2.2).filter (isUpdInvFor r.name) = [] := by
      apply advanceLoop_events_other
      intro x hx hxn
      apply hrnotl1
      rw [← hxn]
      exact List.mem_map_of_mem Reg.name hx
    have hfl2 : ((advanceLoop env
        (processEntry env (advanceLoop env st.db l1).2.1 r).2.1 l2).2.2).filter
          (isUpdInvFor r.name) = [] := by
      apply advanceLoop_events_other
      intro x hx hxn
      apply hrnotl2
      rw [← hxn]
      exact List.mem_map_of_mem Reg.name hx
    have hflu : uevs.filter (isUpdInvFor r.name) = [] :=
      unlockRun_events env.uenv r.name ufuel 0 UnlockRes.returnedNormally uevs hu
    have hflP : ((processEntry env (advanceLoop env st.db l1).2.1 r).2.2).filter
        (isUpdInvFor r.name)
        = [Ev.updateNameInvoked r.name
            (lookupNymCred (finishRows st.db r.name) r.name).1
            (lookupNymCred (finishRows st.db r.name) r.name).2] := by
      rw [hPev]
      simp [isUpdInvFor]
    refine ⟨?_, ?_, ?_⟩
    · rw [hevs, List.filter_append, List.filter_append, List.filter_append,
          hflu, hfl1, hflP, hfl2]
      rfl
    · intro hth
      rw [hst2]
      rintro ⟨k, hk, hkn⟩
      rw [hPkeepF hth] at hk
      rcases List.mem_append.mp hk with hk1 | hk2
      · apply hrnotl1
        rw [← hkn]
        exact advanceLoop_names env l1 st.db k hk1
      · rcases List.mem_append.mp hk2 with hk3 | hk3
        · exact absurd hk3 (by simp)
        · apply hrnotl2
          rw [← hkn]
          exact advanceLoop_names env l2 _ k hk3
    · intro hth
      rw [hst2, hPkeepT hth]
      apply List.mem_append.mpr
      right
      apply List.mem_append.mpr
      left
      simp

theorem finished_binding_removal_and_single_update_witness :
    (([Ev.lowUnlockCall "", Ev.updateNameInvoked "ot/c1" "n1" "c1"].filter
        (isUpdInvFor regOne.name)).length = 1)
    ∧ (updThrows envGood.upd
          (lookupNymCred (finishRows stOne.db regOne.name) regOne.name).1
          (lookupNymCred (finishRows stOne.db regOne.name) regOne.name).2 = false →
        ¬ InLedger (MgrState.pendingRegs
            { db := [{ name := "ot/c1", nym := "n1", cred := "c1", active := true,
                       regData := none, updateTx := some "tx1" }],
              pendingRegs := [] }) regOne.name)
    ∧ (updThrows envGood.upd
          (lookupNymCred (finishRows stOne.db regOne.name) regOne.name).1
          (lookupNymCred (finishRows stOne.db regOne.name) regOne.name).2 = true →
        regOne ∈ MgrState.pendingRegs
            { db := [{ name := "ot/c1", nym := "n1", cred := "c1", active := true,
                       regData := none, updateTx := some "tx1" }],
              pendingRegs := [] }) :=
  finished_binding_removal_and_single_update envGood stOne 1 regOne
    { db := [{ name := "ot/c1", nym := "n1", cred := "c1", active := true,
               regData := none, updateTx := some "tx1" }],
      pendingRegs := [] }
    [Ev.lowUnlockCall "", Ev.updateNameInvoked "ot/c1" "n1" "c1"]
    [Ev.lowUnlockCall ""]
    (by simp [stOne, regOne]) (by simp [stOne]) rfl rfl rfl

/-! ### C3: the ledger mirrors the pending rows -/

theorem pendingRow_append (d1 d2 : List DBRow) (n : String) :
    PendingRow (d1 ++ d2) n ↔ PendingRow d1 n ∨ PendingRow d2 n := by
  constructor
  · rintro ⟨row, hm, hn, hs, ha⟩
    rcases List.mem_append.mp hm with h | h
    exacts [Or.inl ⟨row, h, hn, hs, ha⟩, Or.inr ⟨row, h, hn, hs, ha⟩]
  · rintro (⟨row, h, hn, hs, ha⟩ | ⟨row, h, hn, hs, ha⟩)
    exacts [⟨row, List.mem_append.mpr (Or.inl h), hn, hs, ha⟩,
            ⟨row, List.mem_append.mpr (Or.inr h), hn, hs, ha⟩]

/-- C3 counterexample: a tick in which the binding is finished but
`updateName` escapes with an exception.  The tick completes, the row
is already persisted as `active = true` with `regData` cleared, yet
the binding is still in the in-memory ledger — the mirror invariant is
broken after a completed tick. -/
theorem ledger_mirror_broken_by_thrown_update_cex :
    timerUpdate envUpdThrows 1 stOne =
      TickResult.done { db := [rowFinished], pendingRegs := [regOne] }
        [Ev.lowUnlockCall "", Ev.updateNameInvoked "ot/c1" "n1" "c1"]
    ∧ ledgerMirrorsDB stOne
    ∧ ¬ ledgerMirrorsDB { db := [rowFinished], pendingRegs := [regOne] } := by
  refine ⟨rfl, ?_, ?_⟩
  · intro n
    simp [stOne, InLedger, PendingRow, regOne, rowPending]
  · intro h
    have h2 := (h "ot/c1").mp ⟨regOne, by simp, rfl⟩
    obtain ⟨row, hrow, hname, hsome, hact⟩ := h2
    simp only [List.mem_singleton] at hrow
    subst hrow
    simp [rowFinished, rowPending] at hsome

/-- C3 amended: the mirror invariant — a binding is in the in-memory
ledger iff a persisted row under its name has non-null `regData` and
`active = false` — holds after construction (provided the stored
serializations deserialize back to their row's name), is preserved by
`startRegistration`, and is preserved by every completed tick provided
the binding names are distinct and the update step never escapes with
an exception (signing succeeds and the update execution fails only
ever with `NoPrivateKey`); a thrown update breaks it (see the
counterexample). -/
theorem ledger_mirrors_db_invariant :
    (∀ (env : Env) (db : List DBRow),
      (∀ row ∈ db, ∀ s, row.regData = some s → row.active = false →
        (env.deserialize s).name = row.name) →
      ledgerMirrorsDB (constructManager env db))
    ∧ (∀ (env : Env) (ufuel : Nat) (st st2 : MgrState)
        (nym cred : String) (evs : List Ev),
        ledgerMirrorsDB st →
        startRegistration env ufuel st nym cred = some (st2, evs) →
        ledgerMirrorsDB st2)
    ∧ (∀ (env : Env) (ufuel : Nat) (st st2 : MgrState) (evs : List Ev),
        ledgerMirrorsDB st →
        (st.pendingRegs.map Reg.name).Nodup →
        (∀ a m, ∃ s, env.upd.signMessage a m = Except.ok s) →
        (∀ nm e, env.upd.execute nm = Except.error e → e = NmcErr.noPrivateKey) →
        timerUpdate env ufuel st = TickResult.done st2 evs →
        ledgerMirrorsDB st2) := by
  refine ⟨?_, ?_, ?_⟩
  · -- construction reloads exactly the pending rows
    intro env db hround n
    show InLedger (loadPendingRegs env db) n ↔ PendingRow db n
    constructor
    · rintro ⟨reg, hreg, hname⟩
      unfold loadPendingRegs at hreg
      rw [List.mem_filterMap] at hreg
      obtain ⟨row, hrowf, hmap⟩ := hreg
      rw [List.mem_filter] at hrowf
      obtain ⟨hrowdb, hcond⟩ := hrowf
      rw [Bool.and_eq_true, Bool.not_eq_true'] at hcond
      obtain ⟨hsome, hact⟩ := hcond
      rw [Option.map_eq_some'] at hmap
      obtain ⟨s, hsval, hdes⟩ := hmap
      refine ⟨row, hrowdb, ?_, hsome, hact⟩
      rw [← hname, ← hdes, hround row hrowdb s hsval hact]
    · rintro ⟨row, hrow, hname, hsome, hact⟩
      obtain ⟨s, hs⟩ := Option.isSome_iff_exists.mp hsome
      refine ⟨env.deserialize s, ?_, ?_⟩
      · unfold loadPendingRegs
        rw [List.mem_filterMap]
        refine ⟨row, ?_, ?_⟩
        · rw [List.mem_filter]
          refine ⟨hrow, ?_⟩
          rw [hs, hact]
          rfl
        · rw [hs]
          rfl
      · rw [hround row hrow s hs hact, hname]
  · -- startRegistration preserves the invariant
    intro env ufuel st st2 nym cred evs hinv hcall
    simp only [startRegistration] at hcall
    cases hu : unlockRun env.uenv 0 ufuel with
    | none => rw [hu] at hcall; exact Option.noConfusion hcall
    | some p =>
      rw [hu] at hcall
      obtain ⟨res, uevs⟩ := p
      cases res with
      | unlockThrew =>
        injection hcall with h2
        have hst : st2 = st := (congrArg Prod.fst h2).symm
        rw [hst]
        exact hinv
      | returnedNormally =>
        cases hr : env.registerName (getNameFor cred) with
        | error e =>
          simp only [hr] at hcall
          injection hcall with h2
          have hst : st2 = st := (congrArg Prod.fst h2).symm
          rw [hst]
          exact hinv
        | ok st0 =>
          simp only [hr] at hcall
          injection hcall with h2
          rw [Prod.mk.injEq] at h2
          obtain ⟨h2a, h2b⟩ := h2
          rw [← h2a]
          intro n
          show InLedger (st.pendingRegs ++ [{ name := getNameFor cred, st := st0 }]) n
            ↔ PendingRow (st.db ++ [_]) n
          rw [inLedger_append, pendingRow_append, hinv n]
          apply or_congr_right
          constructor
          · rintro ⟨r, hr2, hn⟩
            rw [List.mem_singleton] at hr2
            subst hr2
            exact ⟨_, List.mem_singleton.mpr rfl, hn, rfl, rfl⟩
          · rintro ⟨row, hr2, hn, _, _⟩
            rw [List.mem_singleton] at hr2
            subst hr2
            exact ⟨_, List.mem_singleton.mpr rfl, hn⟩
  · -- a completed tick preserves the invariant
    intro env ufuel st st2 evs hinv hnd hsig hexec ht
    have hupd := updateName_total env.upd hsig hexec
    cases hscan : scanNeedUnlock env st.pendingRegs with
    | error e =>
      simp only [timerUpdate, hscan] at ht
      exact TickResult.noConfusion ht
    | ok b =>
      simp only [timerUpdate, hscan] at ht
      cases b with
      | false =>
        rw [if_neg (by simp)] at ht
        injection ht with h1 h2
        rw [← h1]
        intro n
        exact advanceLoop_mirrors env hupd st.pendingRegs st.db hnd hinv n
      | true =>
        rw [if_pos rfl] at ht
        cases hu : unlockRun env.uenv 0 ufuel with
        | none => rw [hu] at ht; exact TickResult.noConfusion ht
        | some p =>
          rw [hu] at ht
          obtain ⟨res, uevs⟩ := p
          cases res with
          | unlockThrew =>
            injection ht with h1 h2
            rw [← h1]
            exact hinv
          | returnedNormally =>
            injection ht with h1 h2
            rw [← h1]
            intro n
            exact advanceLoop_mirrors env hupd st.pendingRegs st.db hnd hinv n

theorem ledger_mirrors_db_invariant_witness :
    ledgerMirrorsDB (constructManager envGood [rowPending, rowFinished])
    ∧ ledgerMirrorsDB
        { db := [rowPending,
            { name := "ot/c2", nym := "n2", cred := "c2", active := false,
              regData := some "ot/c2", updateTx := none }],
          pendingRegs := [regOne, { name := "ot/c2", st := 0 }] }
    ∧ ledgerMirrorsDB
        { db := [{ name := "ot/c1", nym := "n1", cred := "c1", active := true,
                   regData := none, updateTx := some "tx1" }],
          pendingRegs := [] } := by
  refine ⟨?_, ?_, ?_⟩
  · apply ledger_mirrors_db_invariant.1 envGood [rowPending, rowFinished]
    intro row hrow s hsval hact
    rcases List.mem_cons.mp hrow with h | h
    · subst h
      injection hsval with h2
      rw [← h2]
      rfl
    · rw [List.mem_singleton] at h
      subst h
      exact absurd hact (by simp [rowFinished, rowPending])
  · apply ledger_mirrors_db_invariant.2.1 envGood 1 stOne _ "n2" "c2"
      [Ev.lowUnlockCall "", Ev.registerOp "ot/c2"]
    · intro n
      simp [stOne, InLedger, PendingRow, regOne, rowPending]
    · rfl
  · apply ledger_mirrors_db_invariant.2.2 envGood 1 stOne _
      [Ev.lowUnlockCall "", Ev.updateNameInvoked "ot/c1" "n1" "c1"]
    · intro n
      simp [stOne, InLedger, PendingRow, regOne, rowPending]
    · simp [stOne, regOne]
    · intro a m
      exact ⟨"sig1", rfl⟩
    · intro nm e h
      simp [envGood, updEnvGood] at h
    · rfl

/-! ### C2: exception isolation in the tick -/

/-- C2 counterexample: the scan phase of `timerUpdate`
(lines 244-247) runs outside any `try` block, so a transport error
thrown by a readiness predicate (`canActivate` here) propagates out of
the tick to its caller, refuting the claim that the tick never
propagates an exception. -/
theorem scan_phase_exception_escapes_cex :
    timerUpdate envScanThrows 1 stOne =
      TickResult.threw stOne NmcErr.rpcError [] := rfl

/-- C2 amended: provided the scan phase's readiness calls do not
throw, the tick never propagates an exception; in the advance phase a
per-binding exception is caught, the failing binding is left in place
with the table untouched, and the loop is compositional over list
append, so the remaining bindings are processed exactly as they would
have been from the same intermediate table. -/
theorem tick_exception_isolation :
    (∀ (env : Env) (st : MgrState) (ufuel : Nat) (b : Bool),
      scanNeedUnlock env st.pendingRegs = Except.ok b →
      ∀ st2 e evs, timerUpdate env ufuel st ≠ TickResult.threw st2 e evs)
    ∧ (∀ (env : Env) (db : List DBRow) (l1 l2 : List Reg),
        advanceLoop env db (l1 ++ l2) =
          ((advanceLoop env db l1).1
             ++ (advanceLoop env (advanceLoop env db l1).2.1 l2).1,
           (advanceLoop env (advanceLoop env db l1).2.1 l2).2.1,
           (advanceLoop env db l1).2.2
             ++ (advanceLoop env (advanceLoop env db l1).2.1 l2).2.2))
    ∧ (∀ (env : Env) (db : List DBRow) (r : Reg) (e : NmcErr),
        env.isFinished r = Except.error e →
        processEntry env db r = (some r, db, []))
    ∧ (∀ (env : Env) (db : List DBRow) (r : Reg) (e : NmcErr),
        env.isFinished r = Except.ok false →
        env.canActivate r = Except.error e →
        processEntry env db r = (some r, db, [])) := by
  refine ⟨?_, ?_, ?_, ?_⟩
  · intro env st ufuel b hscan st2 e evs h
    unfold timerUpdate at h
    rw [hscan] at h
    cases b with
    | false => simp at h
    | true =>
      simp only [if_true] at h
      cases hu : unlockRun env.uenv 0 ufuel with
      | none => rw [hu] at h; simp at h
      | some p =>
        rw [hu] at h
        obtain ⟨res, evs2⟩ := p
        cases res <;> simp at h
  · intro env db l1 l2
    exact advanceLoop_append env db l1 l2
  · intro env db r e hf
    simp [processEntry, hf]
  · intro env db r e hf hc
    simp [processEntry, hf, hc]

theorem tick_exception_isolation_witness :
    (timerUpdate envGood 1 stOne ≠ TickResult.threw stOne NmcErr.rpcError [])
    ∧ advanceLoop envGood [rowPending] ([regOne] ++ []) =
        ((advanceLoop envGood [rowPending] [regOne]).1
           ++ (advanceLoop envGood
                 (advanceLoop envGood [rowPending] [regOne]).2.1 []).1,
         (advanceLoop envGood
           (advanceLoop envGood [rowPending] [regOne]).2.1 []).2.1,
         (advanceLoop envGood [rowPending] [regOne]).2.2
           ++ (advanceLoop envGood
                 (advanceLoop envGood [rowPending] [regOne]).2.1 []).2.2)
    ∧ processEntry envFinThrows [rowPending] regOne = (some regOne, [rowPending], [])
    ∧ processEntry envCanThrows [rowPending] regOne = (some regOne, [rowPending], []) :=
  ⟨tick_exception_isolation.1 envGood stOne 1 true rfl stOne NmcErr.rpcError [],
   tick_exception_isolation.2.1 envGood [rowPending] [regOne] [],
   tick_exception_isolation.2.2.1 envFinThrows [rowPending] regOne NmcErr.rpcError rfl,
   tick_exception_isolation.2.2.2 envCanThrows [rowPending] regOne NmcErr.rpcError rfl rfl⟩

end Namecoin
